import Mathlib

/-!
Verification development for the prescription-sync pipeline (src/app.py).

The pipeline clones a repository, loads a YAML prescription document,
optionally stamps the field `spec.release` with the resolved commit SHA
(`content["spec"]["release"] = f"{content['spec']['release']}.{sha}"`),
serializes the document with `yaml.safe_dump` and stores the bytes in a
remote Ceph store under `{bucket}/{deployment}/{path}`.

The document tree, the dictionary operations, the stamping step and the
pipeline control flow are embedded directly from src/app.py.  The YAML
serializer and loader (`yaml.safe_dump` / `yaml.safe_load`) are external
library code not contained in the repository; they are modelled from the
spec as a canonical structured-text serializer (sorted mapping keys, as
`safe_dump` does by default) together with the matching parser.
-/

namespace PSync

/-- Double-quote character (written via its code point). -/
def dquote : Char := Char.ofNat 34

/-- Backslash character. -/
def bslash : Char := Char.ofNat 92

/-- Single-quote character. -/
def squote : Char := Char.ofNat 39

/-- Opening curly bracket character. -/
def lcurly : Char := Char.ofNat 123

/-- Closing curly bracket character. -/
def rcurly : Char := Char.ofNat 125

/-- Lexicographic comparison of character lists by code point; used for the
canonical ordering of mapping keys (computable, kernel-reducible). -/
def charListLe : List Char → List Char → Bool
  | [], _ => true
  | c :: cs, d :: ds =>
    if c.toNat < d.toNat then true
    else if d.toNat < c.toNat then false
    else charListLe cs ds
  | _ :: _, [] => false

/-- Lexicographic string comparison by code point. -/
def strLeB (s t : String) : Bool := charListLe s.data t.data

/-- The structured document tree produced by the YAML loader: scalars
(null, booleans, integers, strings), sequences, and mappings with string
keys.  This is the in-memory shape `yaml.safe_load` produces for the
documents this job processes.  (Floating-point scalars are outside the
model.) -/
inductive Yaml where
  | null
  | bool (b : Bool)
  | int (n : Int)
  | str (s : String)
  | seq (xs : List Yaml)
  | map (l : List (String × Yaml))

/-- Python dictionary read `d[k]` on an association list: the value of the
first matching key, if any. -/
def lookupKey : List (String × Yaml) → String → Option Yaml
  | [], _ => none
  | (k2, v) :: l, k => if k = k2 then some v else lookupKey l k

/-- Python dictionary write `d[k] = v`: replaces the value at an existing
key in place (preserving key order), appending at the end when absent. -/
def setKey : List (String × Yaml) → String → Yaml → List (String × Yaml)
  | [], k, v => [(k, v)]
  | (k2, w) :: l, k, v => if k = k2 then (k, v) :: l else (k2, w) :: setKey l k v

/-- Simplified Python `repr`-style escaping (backslash and single quote);
the exact rendering of exotic strings is not load-bearing for any claim. -/
def escPy : List Char → List Char
  | [] => []
  | c :: cs => (if c = bslash || c = squote then [bslash, c] else [c]) ++ escPy cs

/-- String consisting of one single-quote character. -/
def sq : String := String.mk [squote]

mutual
/-- Python `repr` of a loaded YAML value, as used for elements of
containers by `str`.  Scalars follow Python exactly (`None`, `True`,
`False`, decimal integers); strings are single-quoted with simplified
escaping. -/
def pyRepr : Yaml → String
  | .null => "None"
  | .bool true => "True"
  | .bool false => "False"
  | .int n => toString n
  | .str s => sq ++ String.mk (escPy s.data) ++ sq
  | .seq xs => "[" ++ pyReprItems xs ++ "]"
  | .map l => String.mk [lcurly] ++ pyReprEntries l ++ String.mk [rcurly]
/-- Comma-separated `repr` rendering of sequence elements. -/
def pyReprItems : List Yaml → String
  | [] => ""
  | [x] => pyRepr x
  | x :: xs => pyRepr x ++ ", " ++ pyReprItems xs
/-- Comma-separated `repr` rendering of mapping entries. -/
def pyReprEntries : List (String × Yaml) → String
  | [] => ""
  | [(k, v)] => sq ++ String.mk (escPy k.data) ++ sq ++ ": " ++ pyRepr v
  | (k, v) :: l =>
    sq ++ String.mk (escPy k.data) ++ sq ++ ": " ++ pyRepr v ++ ", " ++ pyReprEntries l
end

/-- Python `str()` of a loaded YAML value, as computed by the f-string
`f"{content['spec']['release']}.{sha}"` in src/app.py line 116: strings
render as themselves, every other value as its `repr`. -/
def pyStr : Yaml → String
  | .str s => s
  | v => pyRepr v

/-- The error taxonomy of the pipeline (spec section 7). -/
inductive SyncError where
  | repositoryUnavailable
  | repositoryCorrupt
  | documentNotFound
  | documentMalformed
  | fieldMissing
  | storeUnavailable
  | publishFailed
deriving DecidableEq

/-- The provenance-stamping step, embedded from src/app.py lines 115-116:

    if not no_release_adjustment:
        content["spec"]["release"] = f"{content['spec']['release']}.{sha}"

The right-hand side is evaluated first, so a failed lookup of
`content["spec"]["release"]` (missing key, or indexing a non-dictionary)
aborts before any write; the spec files all such aborts under
`FieldMissing`.  When the lookup succeeds the value — of any type — is
rendered by the f-string via Python `str()` and the dictionaries are
updated in place. -/
def stamp (noAdj : Bool) (sha : String) (content : Yaml) : Except SyncError Yaml :=
  if noAdj then .ok content
  else
    match content with
    | .map l =>
      match lookupKey l "spec" with
      | some (.map l2) =>
        match lookupKey l2 "release" with
        | some v =>
          .ok (.map (setKey l "spec"
            (.map (setKey l2 "release" (.str (pyStr v ++ "." ++ sha))))))
        | none => .error .fieldMissing
      | some _ => .error .fieldMissing
      | none => .error .fieldMissing
    | _ => .error .fieldMissing

/-- Does `spec.release` resolve in the document, in the sense of the two
Python dictionary reads of src/app.py line 116? -/
def resolvesSpecRelease (content : Yaml) : Bool :=
  match content with
  | .map l =>
    match lookupKey l "spec" with
    | some (.map l2) => (lookupKey l2 "release").isSome
    | _ => false
  | _ => false

/-- Key ordering on mapping entries (by key, code-point lexicographic). -/
def keyLe (a b : String × Yaml) : Prop := strLeB a.1 b.1 = true

instance : DecidableRel keyLe :=
  fun a b => inferInstanceAs (Decidable (strLeB a.1 b.1 = true))

/-- Sort mapping entries by key, as `yaml.safe_dump` does by default
(`sort_keys=True`). -/
def sortPairs (l : List (String × Yaml)) : List (String × Yaml) :=
  List.insertionSort keyLe l

mutual
/-- Canonical form of a document: every mapping recursively sorted by key.
Modelled from the spec: `yaml.safe_dump` emits mapping keys in sorted
order, so serialization factors through this canonicalization. -/
def canon : Yaml → Yaml
  | .null => .null
  | .bool b => .bool b
  | .int n => .int n
  | .str s => .str s
  | .seq xs => .seq (canonList xs)
  | .map l => .map (sortPairs (canonPairs l))
/-- Canonical form of each element of a sequence. -/
def canonList : List Yaml → List Yaml
  | [] => []
  | x :: xs => canon x :: canonList xs
/-- Canonical form of each value of a mapping (key order untouched here;
`canon` sorts afterwards). -/
def canonPairs : List (String × Yaml) → List (String × Yaml)
  | [] => []
  | (k, v) :: l => (k, canon v) :: canonPairs l
end

/-- Little-endian base-10 digits with explicit fuel (kernel-reducible). -/
def natDigitsRev (fuel n : Nat) : List Nat :=
  match fuel with
  | 0 => []
  | f + 1 => if n = 0 then [] else (n % 10) :: natDigitsRev f (n / 10)

/-- Decimal rendering of a natural number. -/
def renderNat (m : Nat) : List Char :=
  if m = 0 then ['0'] else ((natDigitsRev m m).map Nat.digitChar).reverse

/-- Decimal rendering of an integer (minus sign for negatives). -/
def renderInt : Int → List Char
  | .ofNat n => renderNat n
  | .negSucc m => '-' :: renderNat (m + 1)

/-- Character tail of the keyword `null` after its dispatch character. -/
def kwNullTail : List Char := ['u', 'l', 'l']

/-- Character tail of the keyword `true` after its dispatch character. -/
def kwTrueTail : List Char := ['r', 'u', 'e']

/-- Character tail of the keyword `false` after its dispatch character. -/
def kwFalseTail : List Char := ['a', 'l', 's', 'e']

/-- Escaping for serialized strings: backslash before a double quote or a
backslash, every other character verbatim. -/
def escChars : List Char → List Char
  | [] => []
  | c :: cs => (if c = dquote || c = bslash then [bslash, c] else [c]) ++ escChars cs

mutual
/-- Modelled from the spec: the structured text rendering of a document
used by the publisher (`yaml.safe_dump` in src/app.py line 118 — external
library code).  Rendered in flow style: `null`, `true`/`false`, decimal
integers, double-quoted strings, comma-separated bracketed sequences and
comma-separated curly-bracketed mappings with double-quoted keys. -/
def renderVal : Yaml → List Char
  | .null => 'n' :: kwNullTail
  | .bool true => 't' :: kwTrueTail
  | .bool false => 'f' :: kwFalseTail
  | .int n => renderInt n
  | .str s => dquote :: escChars s.data ++ [dquote]
  | .seq [] => ['[', ']']
  | .seq (x :: xs) => '[' :: (renderVal x ++ renderSeqTail xs)
  | .map [] => [lcurly, rcurly]
  | .map (e :: es) => lcurly :: (renderEntry e ++ renderMapTail es)
/-- Rendering of one mapping entry: quoted key, colon, value. -/
def renderEntry : String × Yaml → List Char
  | (k, v) => dquote :: escChars k.data ++ dquote :: ':' :: renderVal v
/-- Rendering of the remaining elements of a sequence, up to and
including `]`. -/
def renderSeqTail : List Yaml → List Char
  | [] => [']']
  | y :: ys => ',' :: (renderVal y ++ renderSeqTail ys)
/-- Rendering of the remaining entries of a mapping, up to and including
the closing curly bracket. -/
def renderMapTail : List (String × Yaml) → List Char
  | [] => [rcurly]
  | e :: es => ',' :: (renderEntry e ++ renderMapTail es)
end

/-- Serialization used before publishing: canonicalize (sorted mapping
keys) and render. -/
def serialize (d : Yaml) : String := String.mk (renderVal (canon d))

/-- Body of a double-quoted string: consume until the closing unescaped
quote, unescaping backslash pairs. -/
def parseStrBody : List Char → Option (List Char × List Char)
  | [] => none
  | c :: rest =>
    if c = dquote then some ([], rest)
    else if c = bslash then
      match rest with
      | [] => none
      | d :: rest2 => (parseStrBody rest2).map fun p => (d :: p.1, p.2)
    else (parseStrBody rest).map fun p => (c :: p.1, p.2)

/-- Numeric value of a decimal digit character. -/
def charDigit (c : Char) : Nat := c.toNat - 48

/-- Parse a maximal run of decimal digits into a natural number. -/
def parseNat (cs : List Char) : Option (Nat × List Char) :=
  let ds := cs.takeWhile Char.isDigit
  if ds.isEmpty then none
  else some (Nat.ofDigits 10 ((ds.map charDigit).reverse), cs.drop ds.length)

/-- Require the given characters verbatim at the head of the input. -/
def expectChars : List Char → List Char → Option (List Char)
  | [], cs => some cs
  | _ :: _, [] => none
  | e :: es, c :: cs => if c = e then expectChars es cs else none

mutual
/-- Modelled from the spec: the loader's parser (`yaml.safe_load` in
src/app.py line 113 — external library code) for the flow-style rendering
of `renderVal`, with explicit fuel. -/
def parseVal : Nat → List Char → Option (Yaml × List Char)
  | 0, _ => none
  | f + 1, cs =>
    match cs with
    | [] => none
    | c :: rest =>
      if c = 'n' then (expectChars kwNullTail rest).map fun r => (.null, r)
      else if c = 't' then (expectChars kwTrueTail rest).map fun r => (.bool true, r)
      else if c = 'f' then (expectChars kwFalseTail rest).map fun r => (.bool false, r)
      else if c = dquote then (parseStrBody rest).map fun p => (.str (String.mk p.1), p.2)
      else if c = '-' then (parseNat rest).map fun p => (.int (-(p.1 : Int)), p.2)
      else if c.isDigit then (parseNat (c :: rest)).map fun p => (.int (p.1 : Int), p.2)
      else if c = '[' then
        match rest with
        | [] => none
        | r0 :: r =>
          if r0 = ']' then some (.seq [], r)
          else (parseItems f (r0 :: r)).map fun p => (.seq p.1, p.2)
      else if c = lcurly then
        match rest with
        | [] => none
        | r0 :: r =>
          if r0 = rcurly then some (.map [], r)
          else (parseEntries f (r0 :: r)).map fun p => (.map p.1, p.2)
      else none
/-- Parse one or more comma-separated values up to `]`. -/
def parseItems : Nat → List Char → Option (List Yaml × List Char)
  | 0, _ => none
  | f + 1, cs =>
    (parseVal f cs).bind fun p =>
      match p.2 with
      | [] => none
      | c :: r =>
        if c = ',' then (parseItems f r).map fun q => (p.1 :: q.1, q.2)
        else if c = ']' then some ([p.1], r)
        else none
/-- Parse one or more comma-separated `"key":value` entries up to the
closing curly bracket. -/
def parseEntries : Nat → List Char → Option (List (String × Yaml) × List Char)
  | 0, _ => none
  | f + 1, cs =>
    match cs with
    | [] => none
    | c :: rest =>
      if c = dquote then
        (parseStrBody rest).bind fun pk =>
          match pk.2 with
          | [] => none
          | c2 :: r2 =>
            if c2 = ':' then
              (parseVal f r2).bind fun pv =>
                match pv.2 with
                | [] => none
                | c3 :: r3 =>
                  if c3 = ',' then
                    (parseEntries f r3).map fun q => ((String.mk pk.1, pv.1) :: q.1, q.2)
                  else if c3 = rcurly then some ([(String.mk pk.1, pv.1)], r3)
                  else none
            else none
      else none
end

/-- Modelled from the spec: the loader — parse a full document, requiring
the whole input to be consumed. -/
def load (s : String) : Option Yaml :=
  match parseVal s.data.length s.data with
  | some (v, []) => some v
  | _ => none

/-- The input does not begin with a decimal digit (so a digit run ending
right before it is maximal). -/
def headNotDigit : List Char → Bool
  | [] => true
  | c :: _ => !c.isDigit

mutual
/-- Fuel needed by `parseVal` for a rendered document (proof-side only). -/
def mVal : Yaml → Nat
  | .seq xs => 1 + mItems xs
  | .map l => 1 + mEntries l
  | _ => 1
/-- Fuel needed by `parseItems` for a rendered sequence tail. -/
def mItems : List Yaml → Nat
  | [] => 0
  | x :: xs => 1 + max (mVal x) (mItems xs)
/-- Fuel needed by `parseEntries` for a rendered mapping tail. -/
def mEntries : List (String × Yaml) → Nat
  | [] => 0
  | e :: es => 1 + max (mVal e.2) (mEntries es)
end

/-- Is the key present in the association list? -/
def keyMem (k : String) : List (String × Yaml) → Bool
  | [] => false
  | e :: l => k = e.1 || keyMem k l

/-- Are the keys of the association list pairwise distinct? -/
def distinctKeys : List (String × Yaml) → Bool
  | [] => true
  | e :: l => !keyMem e.1 l && distinctKeys l

mutual
/-- Every mapping in the document has pairwise distinct keys — true of
every document a YAML loader produces (Python dictionaries cannot hold
duplicate keys). -/
def wfKeys : Yaml → Bool
  | .null => true
  | .bool _ => true
  | .int _ => true
  | .str _ => true
  | .seq xs => wfKeysList xs
  | .map l => distinctKeys l && wfKeysPairs l
/-- `wfKeys` for every element of a sequence. -/
def wfKeysList : List Yaml → Bool
  | [] => true
  | x :: xs => wfKeys x && wfKeysList xs
/-- `wfKeys` for every value of a mapping. -/
def wfKeysPairs : List (String × Yaml) → Bool
  | [] => true
  | e :: l => wfKeys e.2 && wfKeysPairs l
end

mutual
/-- Structural equality of documents up to the order of mapping entries —
the equality Python's `==` implements on the loaded trees (insertion
order of dictionary keys is irrelevant). -/
inductive Reorder : Yaml → Yaml → Prop
  | null : Reorder .null .null
  | bool (b : Bool) : Reorder (.bool b) (.bool b)
  | int (n : Int) : Reorder (.int n) (.int n)
  | str (s : String) : Reorder (.str s) (.str s)
  | seq {xs ys : List Yaml} : ReorderList xs ys → Reorder (.seq xs) (.seq ys)
  | map {l1 l2 l3 : List (String × Yaml)} :
      ReorderPairs l1 l2 → l2.Perm l3 → Reorder (.map l1) (.map l3)
/-- Pointwise `Reorder` of sequence elements. -/
inductive ReorderList : List Yaml → List Yaml → Prop
  | nil : ReorderList [] []
  | cons {x y xs ys} : Reorder x y → ReorderList xs ys → ReorderList (x :: xs) (y :: ys)
/-- Pointwise `Reorder` of mapping entries with equal keys. -/
inductive ReorderPairs : List (String × Yaml) → List (String × Yaml) → Prop
  | nil : ReorderPairs [] []
  | cons {v w l1 l2} (k : String) : Reorder v w → ReorderPairs l1 l2 →
      ReorderPairs ((k, v) :: l1) ((k, w) :: l2)
end

/-- The external effects one pipeline run observes: the outcome of the
shallow clone (resolved head commit SHA on success), the outcome of
reading and parsing the prescription file, the flag and environment
configuration, and whether the store connection and the blob write
succeed. -/
structure Env where
  cloneResult : Except SyncError String
  loadResult : Except SyncError Yaml
  noReleaseAdjustment : Bool
  bucketSegment : String
  deploymentName : String
  prescriptionPath : String
  connectOk : Bool
  storeOk : Bool

/-- Pipeline stage (spec section 4.5), with the data resolved so far. -/
inductive Phase where
  | idle
  | cloned (sha : String)
  | loaded (sha : String) (doc : Yaml)
  | stamped (sha : String) (doc : Yaml)
  | done
  | failed (e : SyncError)

/-- Observable pipeline state: current stage, whether the ephemeral
temporary clone directory currently exists on disk, and the blob written
to the remote store (key and bytes), if any. -/
structure PState where
  phase : Phase
  tmpDirExists : Bool
  store : Option (String × String)

/-- Initial state: nothing cloned, no temporary directory, no blob. -/
def initState : PState := ⟨.idle, false, none⟩

/-- The deployment prefix, from src/app.py line 120:
`f"{os.environ['THOTH_CEPH_BUCKET_PREFIX']}/{os.environ['THOTH_DEPLOYMENT_NAME']}"`. -/
def deployKeyBase (env : Env) : String :=
  env.bucketSegment ++ "/" ++ env.deploymentName

/-- The remote store key a publish resolves to: the deployment prefix
joined to the relative document path.  Modelled from the spec:
`CephStore(prefix).store_blob(prescription, prescription_path)` writes at
`{prefix}/{prescription_path}`. -/
def targetKey (env : Env) : String :=
  deployKeyBase env ++ "/" ++ env.prescriptionPath

/-- One transition of the pipeline, embedded from the control flow of
`sync` (src/app.py lines 104-125).  The `tempfile.TemporaryDirectory`
context manager covers exactly the clone and the load (lines 106-113):
it removes the directory when its block exits, normally or by exception;
the block has already closed before stamping begins.  Stamping and
publishing follow outside it.  Modelled from the spec for the store
steps: `CephStore(prefix)` / `connect` / `store_blob(prescription,
prescription_path)` are external collaborator calls that write the bytes
at `{prefix}/{prescription_path}`. -/
def step (env : Env) (s : PState) : PState :=
  match s.phase with
  | .idle =>
    match env.cloneResult with
    | .error e => ⟨.failed e, false, s.store⟩
    | .ok sha => ⟨.cloned sha, true, s.store⟩
  | .cloned sha =>
    match env.loadResult with
    | .error e => ⟨.failed e, false, s.store⟩
    | .ok doc => ⟨.loaded sha doc, false, s.store⟩
  | .loaded sha doc =>
    match stamp env.noReleaseAdjustment sha doc with
    | .error e => ⟨.failed e, s.tmpDirExists, s.store⟩
    | .ok doc2 => ⟨.stamped sha doc2, s.tmpDirExists, s.store⟩
  | .stamped _ doc2 =>
    if env.connectOk then
      if env.storeOk then
        ⟨.done, s.tmpDirExists, some (targetKey env, serialize doc2)⟩
      else ⟨.failed .publishFailed, s.tmpDirExists, s.store⟩
    else ⟨.failed .storeUnavailable, s.tmpDirExists, s.store⟩
  | .done => s
  | .failed _ => s

/-- A full pipeline run: four transitions reach a terminal state from
`idle` on every outcome. -/
def run (env : Env) : PState :=
  step env (step env (step env (step env initState)))

/-! ### Character and string order lemmas -/

theorem char_toNat_inj {c d : Char} (h : c.toNat = d.toNat) : c = d :=
  Char.eq_of_val_eq (UInt32.ext h)

theorem charListLe_total : ∀ l1 l2 : List Char,
    charListLe l1 l2 = true ∨ charListLe l2 l1 = true := by
  intro l1
  induction l1 with
  | nil => intro l2; left; rfl
  | cons c cs ih =>
    intro l2
    cases l2 with
    | nil => right; rfl
    | cons d ds =>
      rcases Nat.lt_trichotomy c.toNat d.toNat with h | h | h
      · left; simp [charListLe, h]
      · have h1 : ¬ c.toNat < d.toNat := by omega
        have h2 : ¬ d.toNat < c.toNat := by omega
        rcases ih ds with h3 | h3
        · left; simp [charListLe, h1, h2, h3, h]
        · right; simp [charListLe, h1, h2, h3, h]
      · right; simp [charListLe, h]

theorem charListLe_trans : ∀ l1 l2 l3 : List Char, charListLe l1 l2 = true →
    charListLe l2 l3 = true → charListLe l1 l3 = true := by
  intro l1
  induction l1 with
  | nil => intro l2 l3 _ _; rfl
  | cons c cs ih =>
    intro l2 l3 h1 h2
    cases l2 with
    | nil => simp [charListLe] at h1
    | cons d ds =>
      cases l3 with
      | nil => simp [charListLe] at h2
      | cons e es =>
        have hd1 : c.toNat < d.toNat ∨ (c.toNat = d.toNat ∧ charListLe cs ds = true) := by
          by_cases h : c.toNat < d.toNat
          · exact Or.inl h
          · by_cases h4 : d.toNat < c.toNat
            · simp [charListLe, h, h4] at h1
            · exact Or.inr ⟨by omega, by simpa [charListLe, h, h4] using h1⟩
        have hd2 : d.toNat < e.toNat ∨ (d.toNat = e.toNat ∧ charListLe ds es = true) := by
          by_cases h : d.toNat < e.toNat
          · exact Or.inl h
          · by_cases h4 : e.toNat < d.toNat
            · simp [charListLe, h, h4] at h2
            · exact Or.inr ⟨by omega, by simpa [charListLe, h, h4] using h2⟩
        rcases hd1 with h5 | ⟨h5, h6⟩ <;> rcases hd2 with h7 | ⟨h7, h8⟩
        · simp [charListLe, show c.toNat < e.toNat by omega]
        · simp [charListLe, show c.toNat < e.toNat by omega]
        · simp [charListLe, show c.toNat < e.toNat by omega]
        · simp [charListLe, show ¬ c.toNat < e.toNat by omega,
            show ¬ e.toNat < c.toNat by omega, ih ds es h6 h8]

theorem charListLe_antisymm : ∀ l1 l2 : List Char, charListLe l1 l2 = true →
    charListLe l2 l1 = true → l1 = l2 := by
  intro l1
  induction l1 with
  | nil =>
    intro l2 _ h2
    cases l2 with
    | nil => rfl
    | cons d ds => simp [charListLe] at h2
  | cons c cs ih =>
    intro l2 h1 h2
    cases l2 with
    | nil => simp [charListLe] at h1
    | cons d ds =>
      simp only [charListLe] at h1 h2
      by_cases hcd : c.toNat < d.toNat
      · have : ¬ d.toNat < c.toNat := by omega
        simp [hcd, this] at h2
      · by_cases hdc : d.toNat < c.toNat
        · simp [hcd, hdc] at h1
        · have hce : c = d := char_toNat_inj (by omega)
          subst hce
          simp [hcd] at h1 h2
          rw [ih ds h1 h2]

theorem string_data_inj : ∀ {s t : String}, s.data = t.data → s = t := by
  intro s t h
  cases s
  cases t
  exact congrArg String.mk h

/-! ### Dictionary update lemmas (Python `d[k] = v`) -/

theorem lookupKey_setKey_self : ∀ (l : List (String × Yaml)) (k : String) (v : Yaml),
    lookupKey (setKey l k v) k = some v := by
  intro l k v
  induction l with
  | nil => simp [setKey, lookupKey]
  | cons e l ih =>
    obtain ⟨k2, w⟩ := e
    by_cases h : k = k2
    · simp [setKey, lookupKey, h]
    · simp [setKey, lookupKey, h, ih]

theorem lookupKey_setKey_ne : ∀ (l : List (String × Yaml)) (k : String) (v : Yaml)
    (k3 : String), k3 ≠ k → lookupKey (setKey l k v) k3 = lookupKey l k3 := by
  intro l k v k3 hne
  induction l with
  | nil => simp [setKey, lookupKey, hne]
  | cons e l ih =>
    obtain ⟨k2, w⟩ := e
    by_cases h : k = k2
    · subst h
      simp [setKey, lookupKey, hne]
    · by_cases h3 : k3 = k2
      · simp [setKey, lookupKey, h, h3]
      · simp [setKey, lookupKey, h, h3, ih]

/-! ### Decimal rendering and parsing -/

theorem natDigitsRev_eq_digits : ∀ fuel n, n ≤ fuel → natDigitsRev fuel n = Nat.digits 10 n := by
  intro fuel
  induction fuel with
  | zero =>
    intro n h
    interval_cases n
    simp [natDigitsRev]
  | succ f ih =>
    intro n h
    by_cases h0 : n = 0
    · subst h0; simp [natDigitsRev]
    · have hd : n / 10 < n := Nat.div_lt_self (Nat.pos_of_ne_zero h0) (by norm_num)
      rw [natDigitsRev, if_neg h0,
        Nat.digits_def' (by norm_num : 1 < 10) (Nat.pos_of_ne_zero h0), ih (n / 10) (by omega)]

theorem digitChar_isDigit {d : Nat} (h : d < 10) : (Nat.digitChar d).isDigit = true := by
  interval_cases d <;> decide

theorem charDigit_digitChar {d : Nat} (h : d < 10) : charDigit (Nat.digitChar d) = d := by
  interval_cases d <;> decide

theorem renderNat_all_digit : ∀ n c, c ∈ renderNat n → c.isDigit = true := by
  intro n c h
  by_cases h0 : n = 0
  · subst h0
    simp [renderNat] at h
    subst h
    decide
  · rw [renderNat, if_neg h0, natDigitsRev_eq_digits n n le_rfl] at h
    rw [List.mem_reverse, List.mem_map] at h
    obtain ⟨d, hd, rfl⟩ := h
    exact digitChar_isDigit (Nat.digits_lt_base (by norm_num) hd)

theorem renderNat_ne_nil (n : Nat) : renderNat n ≠ [] := by
  by_cases h0 : n = 0
  · subst h0; simp [renderNat]
  · rw [renderNat, if_neg h0, natDigitsRev_eq_digits n n le_rfl]
    simp [Nat.digits_ne_nil_iff_ne_zero, h0]

theorem takeWhile_append_all {p : Char → Bool} : ∀ l r : List Char, (∀ c ∈ l, p c = true) →
    (l ++ r).takeWhile p = l ++ r.takeWhile p := by
  intro l r h
  induction l with
  | nil => simp
  | cons c cs ih =>
    have hc : p c = true := h c (by simp)
    simp only [List.cons_append, List.takeWhile_cons, hc, if_true]
    rw [ih (fun d hd => h d (by simp [hd]))]

theorem takeWhile_nil_of_headNot {p : Char → Bool} : ∀ r : List Char,
    headNotDigit r = true → (p = Char.isDigit) → r.takeWhile p = [] := by
  intro r h hp
  subst hp
  cases r with
  | nil => rfl
  | cons c cs =>
    simp only [headNotDigit, Bool.not_eq_true'] at h
    simp [List.takeWhile_cons, h]

theorem ofDigits_renderNat (n : Nat) :
    Nat.ofDigits 10 (((renderNat n).map charDigit).reverse) = n := by
  by_cases h0 : n = 0
  · subst h0; decide
  · rw [renderNat, if_neg h0, natDigitsRev_eq_digits n n le_rfl]
    rw [List.map_reverse, List.reverse_reverse]
    have h1 : (Nat.digits 10 n).map (fun d => charDigit (Nat.digitChar d)) =
        (Nat.digits 10 n).map id := by
      apply List.map_congr_left
      intro d hd
      exact charDigit_digitChar (Nat.digits_lt_base (by norm_num) hd)
    rw [List.map_map]
    rw [show (charDigit ∘ Nat.digitChar) = (fun d => charDigit (Nat.digitChar d)) from rfl]
    rw [h1, List.map_id]
    exact Nat.ofDigits_digits 10 n

theorem parseNat_renderNat (n : Nat) (rest : List Char) (h : headNotDigit rest = true) :
    parseNat (renderNat n ++ rest) = some (n, rest) := by
  have hall := renderNat_all_digit n
  have htw : (renderNat n ++ rest).takeWhile Char.isDigit = renderNat n := by
    rw [takeWhile_append_all _ _ hall, takeWhile_nil_of_headNot rest h rfl, List.append_nil]
  rw [parseNat]
  simp only [htw]
  rw [if_neg (by simp [List.isEmpty_iff, renderNat_ne_nil n])]
  rw [List.drop_left, ofDigits_renderNat]

/-! ### String escaping round trip -/

theorem parseStrBody_escChars : ∀ s rest : List Char,
    parseStrBody (escChars s ++ dquote :: rest) = some (s, rest) := by
  intro s
  induction s with
  | nil =>
    intro rest
    simp [escChars, parseStrBody.eq_def]
  | cons c cs ih =>
    intro rest
    by_cases h : c = dquote || c = bslash
    · have hb : bslash ≠ dquote := by decide
      simp only [escChars, h, if_true, List.cons_append, List.append_assoc]
      rw [parseStrBody.eq_def]
      simp [hb, ih rest]
    · have hc1 : c ≠ dquote := by
        intro he; subst he; simp at h
      have hc2 : c ≠ bslash := by
        intro he; subst he; simp at h
      simp only [escChars, h, if_false, List.cons_append, List.nil_append]
      rw [parseStrBody.eq_def]
      simp [hc1, hc2, ih rest]

/-! ### Parser round trip -/

theorem expectChars_append : ∀ es r : List Char, expectChars es (es ++ r) = some r := by
  intro es r
  induction es with
  | nil => rfl
  | cons e es ih => simp [expectChars, ih]

theorem isDigit_ne_letters {c : Char} (h : c.isDigit = true) :
    c ≠ 'n' ∧ c ≠ 't' ∧ c ≠ 'f' ∧ c ≠ dquote ∧ c ≠ '-' ∧ c ≠ '[' ∧ c ≠ lcurly := by
  refine ⟨?_, ?_, ?_, ?_, ?_, ?_, ?_⟩ <;> (rintro rfl; revert h; decide)

theorem mVal_pos : ∀ D : Yaml, 1 ≤ mVal D := by
  intro D
  cases D <;> simp [mVal]

theorem renderVal_head_ne_rbrack : ∀ (D : Yaml) (c : Char) (cs : List Char),
    renderVal D = c :: cs → c ≠ ']' := by
  intro D c cs hD
  cases D with
  | null => rw [renderVal] at hD; injection hD with h1 _; subst h1; decide
  | bool b =>
    cases b <;> rw [renderVal] at hD <;> injection hD with h1 _ <;> subst h1 <;> decide
  | int n =>
    cases n with
    | ofNat m =>
      have hc : c.isDigit = true := by
        apply renderNat_all_digit m
        rw [show renderVal (.int (.ofNat m)) = renderNat m from rfl] at hD
        rw [hD]
        simp
      rintro rfl
      revert hc
      decide
    | negSucc m =>
      rw [show renderVal (.int (.negSucc m)) = '-' :: renderNat (m + 1) from rfl] at hD
      injection hD with h1 _
      subst h1
      decide
  | str s => rw [renderVal] at hD; injection hD with h1 _; subst h1; decide
  | seq xs =>
    cases xs <;> rw [renderVal] at hD <;> injection hD with h1 _ <;> subst h1 <;> decide
  | map l =>
    cases l <;> rw [renderVal] at hD <;> injection hD with h1 _ <;> subst h1 <;> decide

theorem headNotDigit_seqTail (xs : List Yaml) (r : List Char) :
    headNotDigit (renderSeqTail xs ++ r) = true := by
  cases xs <;> simp [renderSeqTail, headNotDigit]

theorem headNotDigit_mapTail (es : List (String × Yaml)) (r : List Char) :
    headNotDigit (renderMapTail es ++ r) = true := by
  cases es with
  | nil =>
    simp only [renderMapTail, List.cons_append, headNotDigit, Bool.not_eq_true']
    decide
  | cons e es => simp [renderMapTail, headNotDigit]

theorem renderVal_ne_nil : ∀ D : Yaml, renderVal D ≠ [] := by
  intro D
  cases D with
  | null => simp [renderVal]
  | bool b => cases b <;> simp [renderVal]
  | int n =>
    cases n with
    | ofNat m => simpa [renderVal, renderInt] using renderNat_ne_nil m
    | negSucc m => simp [renderVal, renderInt]
  | str s => simp [renderVal]
  | seq xs => cases xs <;> simp [renderVal]
  | map l => cases l <;> simp [renderVal]

theorem bracket_ne_dquote : ('[' : Char) ≠ dquote := by decide

theorem dash_ne_dquote : ('-' : Char) ≠ dquote := by decide

theorem dquote_facts : dquote ≠ 'n' ∧ dquote ≠ 't' ∧ dquote ≠ 'f' ∧ dquote ≠ rcurly := by
  refine ⟨?_, ?_, ?_, ?_⟩ <;> decide

theorem lcurly_facts : lcurly ≠ 'n' ∧ lcurly ≠ 't' ∧ lcurly ≠ 'f' ∧ lcurly ≠ dquote ∧
    lcurly ≠ '-' ∧ lcurly.isDigit = false ∧ lcurly ≠ '[' := by
  refine ⟨?_, ?_, ?_, ?_, ?_, ?_, ?_⟩ <;> decide

theorem rcurly_ne_comma : rcurly ≠ ',' := by decide

theorem mVal_seq (xs : List Yaml) : mVal (.seq xs) = 1 + mItems xs := rfl

theorem mVal_map (l : List (String × Yaml)) : mVal (.map l) = 1 + mEntries l := rfl

theorem parse_render : ∀ f : Nat,
    (∀ (D : Yaml) (rest : List Char), mVal D ≤ f → headNotDigit rest = true →
      parseVal f (renderVal D ++ rest) = some (D, rest)) ∧
    (∀ (x : Yaml) (xs : List Yaml) (rest : List Char), mItems (x :: xs) ≤ f →
      parseItems f (renderVal x ++ (renderSeqTail xs ++ rest)) = some (x :: xs, rest)) ∧
    (∀ (e : String × Yaml) (es : List (String × Yaml)) (rest : List Char),
      mEntries (e :: es) ≤ f →
      parseEntries f (renderEntry e ++ (renderMapTail es ++ rest)) = some (e :: es, rest)) := by
  intro f
  induction f with
  | zero =>
    refine ⟨?_, ?_, ?_⟩
    · intro D rest hm _
      exact absurd hm (by have := mVal_pos D; omega)
    · intro x xs rest hm
      exact absurd hm (by simp [mItems])
    · intro e es rest hm
      exact absurd hm (by simp [mEntries])
  | succ f ih =>
    obtain ⟨ihV, ihI, ihE⟩ := ih
    refine ⟨?_, ?_, ?_⟩
    · -- parseVal round trip
      intro D rest hm hr
      cases D with
      | null => simp [renderVal, parseVal.eq_def, expectChars_append]
      | bool b => cases b <;> simp [renderVal, parseVal.eq_def, expectChars_append]
      | int n =>
        cases n with
        | ofNat m =>
          obtain ⟨c, cs, hc⟩ : ∃ c cs, renderNat m = c :: cs := by
            cases hcc : renderNat m with
            | nil => exact absurd hcc (renderNat_ne_nil m)
            | cons c cs => exact ⟨c, cs, rfl⟩
          have hd : c.isDigit = true := renderNat_all_digit m c (by rw [hc]; simp)
          obtain ⟨n1, n2, n3, n4, n5, n6, n7⟩ := isDigit_ne_letters hd
          rw [show renderVal (.int (.ofNat m)) = renderNat m from rfl, hc]
          rw [show (c :: cs) ++ rest = c :: (cs ++ rest) from rfl]
          rw [parseVal.eq_def]
          simp only [n1, n2, n3, n4, n5, hd, if_false, if_true, ite_true, ite_false, reduceIte]
          rw [show c :: (cs ++ rest) = renderNat m ++ rest by simp [hc]]
          rw [parseNat_renderNat m rest hr]
          rfl
        | negSucc m =>
          rw [show renderVal (.int (.negSucc m)) = '-' :: renderNat (m + 1) from rfl]
          rw [show ('-' :: renderNat (m + 1)) ++ rest = '-' :: (renderNat (m + 1) ++ rest)
            from rfl]
          rw [parseVal.eq_def]
          simp only [dash_ne_dquote, if_false, ite_false, reduceIte]
          rw [parseNat_renderNat (m + 1) rest hr]
          simp [Int.negSucc_eq]
      | str s =>
        obtain ⟨q1, q2, q3, _⟩ := dquote_facts
        rw [show renderVal (.str s) = dquote :: escChars s.data ++ [dquote] from rfl]
        rw [show (dquote :: escChars s.data ++ [dquote]) ++ rest =
          dquote :: (escChars s.data ++ dquote :: rest) by simp]
        rw [parseVal.eq_def]
        simp only [q1, q2, q3, if_false, ite_false, ite_true, reduceIte]
        rw [parseStrBody_escChars s.data rest]
        simp [show String.mk s.data = s from rfl]
      | seq xs =>
        cases xs with
        | nil =>
          simp [renderVal, parseVal.eq_def, bracket_ne_dquote]
        | cons x xs =>
          obtain ⟨c, cs, hc⟩ : ∃ c cs, renderVal x = c :: cs := by
            cases hcc : renderVal x with
            | nil => exact absurd hcc (renderVal_ne_nil x)
            | cons c cs => exact ⟨c, cs, rfl⟩
          have hne : c ≠ ']' := renderVal_head_ne_rbrack x c cs hc
          have hmx : mItems (x :: xs) ≤ f := by rw [mVal_seq] at hm; omega
          rw [show renderVal (.seq (x :: xs)) = '[' :: (renderVal x ++ renderSeqTail xs)
            from rfl]
          rw [show ('[' :: (renderVal x ++ renderSeqTail xs)) ++ rest =
            '[' :: (renderVal x ++ (renderSeqTail xs ++ rest)) by simp]
          rw [hc]
          rw [show (c :: cs) ++ (renderSeqTail xs ++ rest) =
            c :: (cs ++ (renderSeqTail xs ++ rest)) from rfl]
          rw [parseVal.eq_def]
          simp only [bracket_ne_dquote, hne, if_false, ite_false, ite_true, reduceIte]
          rw [show c :: (cs ++ (renderSeqTail xs ++ rest)) =
            renderVal x ++ (renderSeqTail xs ++ rest) by simp [hc]]
          rw [ihI x xs rest hmx]
          rfl
      | map l =>
        obtain ⟨c1, c2, c3, c4, c5, c6, c7⟩ := lcurly_facts
        cases l with
        | nil =>
          simp [renderVal, parseVal.eq_def, c1, c2, c3, c4, c5, c6, c7]
        | cons e es =>
          obtain ⟨k, v⟩ := e
          obtain ⟨_, _, _, q4⟩ := dquote_facts
          have hmk : mEntries ((k, v) :: es) ≤ f := by rw [mVal_map] at hm; omega
          rw [show renderVal (.map ((k, v) :: es)) =
            lcurly :: (renderEntry (k, v) ++ renderMapTail es) from rfl]
          rw [show (lcurly :: (renderEntry (k, v) ++ renderMapTail es)) ++ rest =
            lcurly :: (renderEntry (k, v) ++ (renderMapTail es ++ rest)) by simp]
          rw [show renderEntry (k, v) ++ (renderMapTail es ++ rest) =
            dquote :: ((escChars k.data ++ dquote :: ':' :: renderVal v) ++
              (renderMapTail es ++ rest)) from rfl]
          rw [parseVal.eq_def]
          simp only [c1, c2, c3, c4, c5, c6, c7, q4, if_false, ite_false, ite_true, reduceIte]
          rw [show dquote :: ((escChars k.data ++ dquote :: ':' :: renderVal v) ++
              (renderMapTail es ++ rest)) =
            renderEntry (k, v) ++ (renderMapTail es ++ rest) from rfl]
          rw [ihE (k, v) es rest hmk]
          rfl
    · -- parseItems round trip
      intro x xs rest hm
      have hmx : mVal x ≤ f := by
        have h1 := le_max_left (mVal x) (mItems xs)
        simp only [mItems] at hm
        omega
      have hv := ihV x (renderSeqTail xs ++ rest) hmx (headNotDigit_seqTail xs rest)
      rw [parseItems.eq_def]
      simp only [hv, Option.bind_some, Option.some_bind]
      cases xs with
      | nil => simp [renderSeqTail]
      | cons y ys =>
        have hmy : mItems (y :: ys) ≤ f := by
          have h1 := le_max_right (mVal x) (mItems (y :: ys))
          simp only [mItems] at hm ⊢
          simp only [mItems] at h1
          omega
        rw [show renderSeqTail (y :: ys) ++ rest =
          ',' :: (renderVal y ++ (renderSeqTail ys ++ rest)) by simp [renderSeqTail]]
        simp only [reduceIte]
        rw [ihI y ys rest hmy]
        rfl
    · -- parseEntries round trip
      intro e es rest hm
      obtain ⟨k, v⟩ := e
      have hmv : mVal v ≤ f := by
        have h1 := le_max_left (mVal v) (mEntries es)
        simp only [mEntries] at hm
        omega
      have hv := ihV v (renderMapTail es ++ rest) hmv (headNotDigit_mapTail es rest)
      rw [show renderEntry (k, v) ++ (renderMapTail es ++ rest) =
        dquote :: (escChars k.data ++ dquote :: (':' :: (renderVal v ++
          (renderMapTail es ++ rest)))) by simp [renderEntry]]
      rw [parseEntries.eq_def]
      simp only [reduceIte]
      rw [parseStrBody_escChars k.data (':' :: (renderVal v ++ (renderMapTail es ++ rest)))]
      simp only [Option.bind_some, Option.some_bind, reduceIte]
      rw [hv]
      simp only [Option.bind_some, Option.some_bind]
      cases es with
      | nil =>
        simp [renderMapTail, rcurly_ne_comma, show String.mk k.data = k from rfl]
      | cons e2 es2 =>
        have hm2 : mEntries (e2 :: es2) ≤ f := by
          have h1 := le_max_right (mVal v) (mEntries (e2 :: es2))
          simp only [mEntries] at hm ⊢
          simp only [mEntries] at h1
          omega
        rw [show renderMapTail (e2 :: es2) ++ rest =
          ',' :: (renderEntry e2 ++ (renderMapTail es2 ++ rest)) by simp [renderMapTail]]
        simp only [reduceIte]
        rw [ihE e2 es2 rest hm2]
        simp [show String.mk k.data = k from rfl]

/-! ### Fuel bounds: the input length is always enough fuel -/

mutual
theorem mVal_le_len : (D : Yaml) → mVal D ≤ (renderVal D).length
  | .null => by simp [mVal, renderVal, kwNullTail]
  | .bool b => by cases b <;> simp [mVal, renderVal, kwTrueTail, kwFalseTail]
  | .int n => by
    cases n with
    | ofNat m =>
      have h1 : 0 < (renderNat m).length := List.length_pos.mpr (renderNat_ne_nil m)
      simp only [mVal, renderVal, renderInt]
      omega
    | negSucc m => simp [mVal, renderVal, renderInt]
  | .str s => by simp [mVal, renderVal]
  | .seq [] => by simp [mVal, mItems, renderVal]
  | .seq (x :: xs) => by
    have h1 := mVal_le_len x
    have h2 := mItems_le_len xs
    have h3 : 0 < (renderVal x).length := List.length_pos.mpr (renderVal_ne_nil x)
    simp only [mVal, mItems, renderVal, List.length_cons, List.length_append]
    omega
  | .map [] => by simp [mVal, mEntries, renderVal]
  | .map (e :: es) => by
    obtain ⟨k, v⟩ := e
    have h1 := mVal_le_len v
    have h2 := mEntries_le_len es
    simp only [mVal, mEntries, renderVal, renderEntry, List.length_cons, List.length_append]
    omega
theorem mItems_le_len : (xs : List Yaml) → mItems xs + 1 ≤ (renderSeqTail xs).length
  | [] => by simp [mItems, renderSeqTail]
  | y :: ys => by
    have h1 := mVal_le_len y
    have h2 := mItems_le_len ys
    have h3 : 0 < (renderVal y).length := List.length_pos.mpr (renderVal_ne_nil y)
    simp only [mItems, renderSeqTail, List.length_cons, List.length_append]
    omega
theorem mEntries_le_len : (es : List (String × Yaml)) → mEntries es + 1 ≤ (renderMapTail es).length
  | [] => by simp [mEntries, renderMapTail]
  | (k, v) :: es => by
    have h1 := mVal_le_len v
    have h2 := mEntries_le_len es
    simp only [mEntries, renderMapTail, renderEntry, List.length_cons, List.length_append]
    omega
end

/-- Parsing the rendering of any document recovers it exactly. -/
theorem load_renderVal (D : Yaml) : load (String.mk (renderVal D)) = some D := by
  have h := (parse_render (renderVal D).length).1 D [] (mVal_le_len D) rfl
  rw [List.append_nil] at h
  rw [load]
  simp only [show (String.mk (renderVal D)).data = renderVal D from rfl]
  rw [h]

/-- The serialization round trip, at canonical documents. -/
theorem load_serialize (D : Yaml) : load (serialize D) = some (canon D) :=
  load_renderVal (canon D)

/-! ### Canonicalization and reordering -/

theorem canonPairs_eq_map (l : List (String × Yaml)) :
    canonPairs l = l.map (fun p => (p.1, canon p.2)) := by
  induction l with
  | nil => rfl
  | cons e l ih =>
    obtain ⟨k, v⟩ := e
    simp [canonPairs, ih]

theorem canonPairs_keys (l : List (String × Yaml)) :
    (canonPairs l).map Prod.fst = l.map Prod.fst := by
  induction l with
  | nil => rfl
  | cons e l ih =>
    obtain ⟨k, v⟩ := e
    simp [canonPairs, ih]

theorem keyMem_iff (k : String) (l : List (String × Yaml)) :
    keyMem k l = true ↔ k ∈ l.map Prod.fst := by
  induction l with
  | nil => simp [keyMem]
  | cons e l ih => simp [keyMem, ih, decide_eq_true_eq]

theorem distinctKeys_nodup (l : List (String × Yaml)) (h : distinctKeys l = true) :
    (l.map Prod.fst).Nodup := by
  induction l with
  | nil => simp
  | cons e l ih =>
    simp only [distinctKeys, Bool.and_eq_true, Bool.not_eq_true'] at h
    obtain ⟨h1, h2⟩ := h
    simp only [List.map_cons, List.nodup_cons]
    refine ⟨fun hm => ?_, ih h2⟩
    rw [← keyMem_iff] at hm
    rw [hm] at h1
    cases h1

mutual
theorem reorder_canon : (D : Yaml) → Reorder D (canon D)
  | .null => .null
  | .bool b => .bool b
  | .int n => .int n
  | .str s => .str s
  | .seq xs => .seq (reorderList_canon xs)
  | .map l =>
    .map (reorderPairs_canon l) ((List.perm_insertionSort keyLe (canonPairs l)).symm)
theorem reorderList_canon : (xs : List Yaml) → ReorderList xs (canonList xs)
  | [] => .nil
  | x :: xs => .cons (reorder_canon x) (reorderList_canon xs)
theorem reorderPairs_canon : (l : List (String × Yaml)) → ReorderPairs l (canonPairs l)
  | [] => .nil
  | (k, v) :: l => .cons k (reorder_canon v) (reorderPairs_canon l)
end

theorem sortPairs_eq_of_perm (l1 l2 : List (String × Yaml)) (hp : l1.Perm l2)
    (hn : (l1.map Prod.fst).Nodup) : sortPairs l1 = sortPairs l2 := by
  haveI : IsTotal (String × Yaml) keyLe :=
    ⟨fun a b => charListLe_total a.1.data b.1.data⟩
  haveI : IsTrans (String × Yaml) keyLe :=
    ⟨fun a b c h1 h2 => charListLe_trans a.1.data b.1.data c.1.data h1 h2⟩
  have hperm : (sortPairs l1).Perm (sortPairs l2) :=
    ((List.perm_insertionSort keyLe l1).trans hp).trans
      (List.perm_insertionSort keyLe l2).symm
  have hs1 : List.Sorted keyLe (sortPairs l1) := List.sorted_insertionSort keyLe l1
  have hs2 : List.Sorted keyLe (sortPairs l2) := List.sorted_insertionSort keyLe l2
  have hn1 : ((sortPairs l1).map Prod.fst).Nodup :=
    (((List.perm_insertionSort keyLe l1).map Prod.fst).nodup_iff).mpr hn
  have hn2 : ((sortPairs l2).map Prod.fst).Nodup :=
    ((((List.perm_insertionSort keyLe l2).map Prod.fst).trans
      ((hp.map Prod.fst).symm)).nodup_iff).mpr hn
  have key : ∀ s : List (String × Yaml), List.Sorted keyLe s → (s.map Prod.fst).Nodup →
      s.Pairwise (fun a b => keyLe a b ∧ a.1 ≠ b.1) := by
    intro s hs hnd
    have hne : s.Pairwise (fun a b => a.1 ≠ b.1) := List.pairwise_map.mp hnd
    exact hs.and hne
  haveI : IsAntisymm (String × Yaml) (fun a b => keyLe a b ∧ a.1 ≠ b.1) := ⟨by
    rintro a b ⟨h1, h2⟩ ⟨h3, _⟩
    exact absurd (string_data_inj (charListLe_antisymm a.1.data b.1.data h1 h3)) h2⟩
  exact List.eq_of_perm_of_sorted hperm (key _ hs1 hn1) (key _ hs2 hn2)

mutual
theorem canon_eq_of_reorder : {a b : Yaml} → Reorder a b → wfKeys a = true →
    canon a = canon b
  | _, _, .null, _ => rfl
  | _, _, .bool _, _ => rfl
  | _, _, .int _, _ => rfl
  | _, _, .str _, _ => rfl
  | _, _, .seq h, hw => congrArg Yaml.seq (canonList_eq_of_reorder h hw)
  | _, _, @Reorder.map l1 l2 l3 h hp, hw => by
    obtain ⟨hw1, hw2⟩ : distinctKeys l1 = true ∧ wfKeysPairs l1 = true := by
      have h0 : (distinctKeys l1 && wfKeysPairs l1) = true := hw
      simpa using h0
    have e1 : canonPairs l1 = canonPairs l2 := canonPairs_eq_of_reorder h hw2
    have p2 : (canonPairs l2).Perm (canonPairs l3) := by
      rw [canonPairs_eq_map l2, canonPairs_eq_map l3]
      exact hp.map _
    have nd : ((canonPairs l1).map Prod.fst).Nodup := by
      rw [canonPairs_keys]
      exact distinctKeys_nodup l1 hw1
    rw [e1] at nd
    show Yaml.map (sortPairs (canonPairs l1)) = Yaml.map (sortPairs (canonPairs l3))
    rw [e1, sortPairs_eq_of_perm (canonPairs l2) (canonPairs l3) p2 nd]
theorem canonList_eq_of_reorder : {xs ys : List Yaml} → ReorderList xs ys →
    wfKeysList xs = true → canonList xs = canonList ys
  | _, _, .nil, _ => rfl
  | _, _, @ReorderList.cons x y xs ys h hl, hw => by
    obtain ⟨h1, h2⟩ : wfKeys x = true ∧ wfKeysList xs = true := by
      have h0 : (wfKeys x && wfKeysList xs) = true := hw
      simpa using h0
    show canon _ :: canonList _ = canon _ :: canonList _
    rw [canon_eq_of_reorder h h1, canonList_eq_of_reorder hl h2]
theorem canonPairs_eq_of_reorder : {l1 l2 : List (String × Yaml)} → ReorderPairs l1 l2 →
    wfKeysPairs l1 = true → canonPairs l1 = canonPairs l2
  | _, _, .nil, _ => rfl
  | _, _, @ReorderPairs.cons v w t1 t2 k h hp, hw => by
    obtain ⟨h1, h2⟩ : wfKeys v = true ∧ wfKeysPairs t1 = true := by
      have h0 : (wfKeys v && wfKeysPairs t1) = true := hw
      simpa using h0
    show (k, canon _) :: canonPairs _ = (k, canon _) :: canonPairs _
    rw [canon_eq_of_reorder h h1, canonPairs_eq_of_reorder hp h2]
end

/-! ### Pipeline-level lemmas -/

theorem run_eq (env : Env) :
    run env =
      match env.cloneResult with
      | .error e => ⟨.failed e, false, none⟩
      | .ok sha =>
        match env.loadResult with
        | .error e => ⟨.failed e, false, none⟩
        | .ok doc =>
          match stamp env.noReleaseAdjustment sha doc with
          | .error e => ⟨.failed e, false, none⟩
          | .ok doc2 =>
            if env.connectOk then
              if env.storeOk then ⟨.done, false, some (targetKey env, serialize doc2)⟩
              else ⟨.failed .publishFailed, false, none⟩
            else ⟨.failed .storeUnavailable, false, none⟩ := by
  rcases h1 : env.cloneResult with e | sha
  · simp [run, step, initState, h1]
  · rcases h2 : env.loadResult with e | doc
    · simp [run, step, initState, h1, h2]
    · rcases h3 : stamp env.noReleaseAdjustment sha doc with e | doc2
      · simp [run, step, initState, h1, h2, h3]
      · rcases h4 : env.connectOk
        · simp [run, step, initState, h1, h2, h3, h4]
        · rcases h5 : env.storeOk
          · simp [run, step, initState, h1, h2, h3, h4, h5]
          · simp [run, step, initState, h1, h2, h3, h4, h5]

theorem run_store_spec (env : Env) (k b : String) (h : (run env).store = some (k, b)) :
    ∃ sha doc doc2, env.cloneResult = .ok sha ∧ env.loadResult = .ok doc ∧
      stamp env.noReleaseAdjustment sha doc = .ok doc2 ∧
      k = targetKey env ∧ b = serialize doc2 := by
  rw [run_eq] at h
  split at h
  next e heq => simp at h
  next sha heq =>
    split at h
    next e heq2 => simp at h
    next doc heq2 =>
      split at h
      next e heq3 => simp at h
      next doc2 heq3 =>
        split at h
        next h4 =>
          split at h
          next h5 =>
            simp only [Option.some.injEq, Prod.mk.injEq] at h
            exact ⟨sha, doc, doc2, heq, heq2, heq3, h.1.symm, h.2.symm⟩
          next h5 => simp at h
        next h4 => simp at h

theorem stamp_error_of_not_resolves (sha : String) (doc : Yaml)
    (h : resolvesSpecRelease doc = false) :
    stamp false sha doc = .error .fieldMissing := by
  cases doc with
  | map l =>
    rcases h1 : lookupKey l "spec" with _ | v
    · simp [stamp, h1]
    · cases v with
      | map l2 =>
        rcases h2 : lookupKey l2 "release" with _ | w
        · simp [stamp, h1, h2]
        · simp [resolvesSpecRelease, h1, h2] at h
      | null => simp [stamp, h1]
      | bool b => simp [stamp, h1]
      | int n => simp [stamp, h1]
      | str s => simp [stamp, h1]
      | seq xs => simp [stamp, h1]
  | null => simp [stamp]
  | bool b => simp [stamp]
  | int n => simp [stamp]
  | str s => simp [stamp]
  | seq xs => simp [stamp]

theorem setKey_keys : ∀ (l : List (String × Yaml)) (k : String) (v w : Yaml),
    lookupKey l k = some w → (setKey l k v).map Prod.fst = l.map Prod.fst := by
  intro l k v w h
  induction l with
  | nil => cases h
  | cons e l ih =>
    obtain ⟨k2, w2⟩ := e
    by_cases hk : k = k2
    · simp [setKey, hk]
    · simp only [lookupKey, if_neg hk] at h
      simp [setKey, hk, ih h]

/-! ### Claims -/

/-- C1: for every parsed document whose field `spec.release` holds the
string `R` and every commit identifier, stamping with adjustment enabled
replaces `spec.release` by `R ++ "." ++ sha` (the original value, a
literal dot, the commit identifier) and leaves every other field
unchanged: all other keys of the outer mapping and of the `spec` mapping
keep their values, and both mappings keep exactly their original key
lists in order. -/
theorem spec_release_stamped (l l2 : List (String × Yaml)) (R sha : String)
    (hspec : lookupKey l "spec" = some (.map l2))
    (hrel : lookupKey l2 "release" = some (.str R)) :
    ∃ l' l2',
      stamp false sha (.map l) = .ok (.map l') ∧
      lookupKey l' "spec" = some (.map l2') ∧
      lookupKey l2' "release" = some (.str (R ++ "." ++ sha)) ∧
      (∀ k, k ≠ "spec" → lookupKey l' k = lookupKey l k) ∧
      (∀ k, k ≠ "release" → lookupKey l2' k = lookupKey l2 k) ∧
      l'.map Prod.fst = l.map Prod.fst ∧
      l2'.map Prod.fst = l2.map Prod.fst := by
  refine ⟨setKey l "spec" (.map (setKey l2 "release" (.str (R ++ "." ++ sha)))),
    setKey l2 "release" (.str (R ++ "." ++ sha)), ?_, ?_, ?_, ?_, ?_, ?_, ?_⟩
  · simp [stamp, hspec, hrel, pyStr]
  · exact lookupKey_setKey_self l "spec" _
  · exact lookupKey_setKey_self l2 "release" _
  · intro k hk
    exact lookupKey_setKey_ne l "spec" _ k hk
  · intro k hk
    exact lookupKey_setKey_ne l2 "release" _ k hk
  · exact setKey_keys l "spec" _ _ hspec
  · exact setKey_keys l2 "release" _ _ hrel

theorem spec_release_stamped_witness :
    lookupKey [("spec", Yaml.map [("release", Yaml.str "1.0.0")]), ("x", Yaml.int 5)]
      "spec" = some (Yaml.map [("release", Yaml.str "1.0.0")]) ∧
    lookupKey [("release", Yaml.str "1.0.0")] "release" = some (Yaml.str "1.0.0") ∧
    (∃ l' l2',
      stamp false "abc"
        (.map [("spec", Yaml.map [("release", Yaml.str "1.0.0")]), ("x", Yaml.int 5)]) =
        .ok (.map l') ∧
      lookupKey l' "spec" = some (.map l2') ∧
      lookupKey l2' "release" = some (.str ("1.0.0" ++ "." ++ "abc")) ∧
      (∀ k, k ≠ "spec" → lookupKey l' k =
        lookupKey [("spec", Yaml.map [("release", Yaml.str "1.0.0")]), ("x", Yaml.int 5)] k) ∧
      (∀ k, k ≠ "release" → lookupKey l2' k =
        lookupKey [("release", Yaml.str "1.0.0")] k) ∧
      l'.map Prod.fst =
        [("spec", Yaml.map [("release", Yaml.str "1.0.0")]),
          ("x", Yaml.int 5)].map Prod.fst ∧
      l2'.map Prod.fst = [("release", Yaml.str "1.0.0")].map Prod.fst) :=
  ⟨rfl, rfl, spec_release_stamped _ _ "1.0.0" "abc" rfl rfl⟩

/-- C9: whenever the two dictionary reads succeed — the outer mapping has
key `spec` holding a mapping that has key `release` — stamping never
fails, whatever the type of the value found there: the value is rendered
to its Python string form and after stamping the release field holds a
string. -/
theorem stamp_total_when_keys_exist (l l2 : List (String × Yaml)) (v : Yaml) (sha : String)
    (hspec : lookupKey l "spec" = some (.map l2))
    (hrel : lookupKey l2 "release" = some v) :
    ∃ l' l2',
      stamp false sha (.map l) = .ok (.map l') ∧
      lookupKey l' "spec" = some (.map l2') ∧
      lookupKey l2' "release" = some (.str (pyStr v ++ "." ++ sha)) := by
  refine ⟨setKey l "spec" (.map (setKey l2 "release" (.str (pyStr v ++ "." ++ sha)))),
    setKey l2 "release" (.str (pyStr v ++ "." ++ sha)), ?_, ?_, ?_⟩
  · simp [stamp, hspec, hrel]
  · exact lookupKey_setKey_self l "spec" _
  · exact lookupKey_setKey_self l2 "release" _

theorem stamp_total_when_keys_exist_witness :
    lookupKey [("spec", Yaml.map [("release", Yaml.seq [])])] "spec" =
      some (Yaml.map [("release", Yaml.seq [])]) ∧
    lookupKey [("release", Yaml.seq [])] "release" = some (Yaml.seq []) ∧
    (∃ l' l2',
      stamp false "abc" (.map [("spec", Yaml.map [("release", Yaml.seq [])])]) =
        .ok (.map l') ∧
      lookupKey l' "spec" = some (.map l2') ∧
      lookupKey l2' "release" = some (.str (pyStr (Yaml.seq []) ++ "." ++ "abc"))) :=
  ⟨rfl, rfl, stamp_total_when_keys_exist _ _ (Yaml.seq []) "abc" rfl rfl⟩

/-- C4: stamping is not idempotent: stamping a document whose
`spec.release` is the string `R` first with `shaA` and then stamping the
result with `shaB` yields `spec.release = R ++ "." ++ shaA ++ "." ++
shaB` — the second stamp appends a second suffix without detecting or
stripping the first. -/
theorem stamp_not_idempotent (l l2 : List (String × Yaml)) (R shaA shaB : String)
    (hspec : lookupKey l "spec" = some (.map l2))
    (hrel : lookupKey l2 "release" = some (.str R)) :
    ∃ D1 l' l2',
      stamp false shaA (.map l) = .ok D1 ∧
      stamp false shaB D1 = .ok (.map l') ∧
      lookupKey l' "spec" = some (.map l2') ∧
      lookupKey l2' "release" = some (.str (R ++ "." ++ shaA ++ "." ++ shaB)) := by
  refine ⟨.map (setKey l "spec" (.map (setKey l2 "release" (.str (R ++ "." ++ shaA))))),
    setKey (setKey l "spec" (.map (setKey l2 "release" (.str (R ++ "." ++ shaA))))) "spec"
      (.map (setKey (setKey l2 "release" (.str (R ++ "." ++ shaA))) "release"
        (.str (R ++ "." ++ shaA ++ "." ++ shaB)))),
    setKey (setKey l2 "release" (.str (R ++ "." ++ shaA))) "release"
      (.str (R ++ "." ++ shaA ++ "." ++ shaB)), ?_, ?_, ?_, ?_⟩
  · simp [stamp, hspec, hrel, pyStr]
  · simp [stamp, lookupKey_setKey_self, pyStr]
  · exact lookupKey_setKey_self _ "spec" _
  · exact lookupKey_setKey_self _ "release" _

theorem stamp_not_idempotent_witness :
    lookupKey [("spec", Yaml.map [("release", Yaml.str "1.0.0")])] "spec" =
      some (Yaml.map [("release", Yaml.str "1.0.0")]) ∧
    lookupKey [("release", Yaml.str "1.0.0")] "release" = some (Yaml.str "1.0.0") ∧
    (∃ D1 l' l2',
      stamp false "aaa" (.map [("spec", Yaml.map [("release", Yaml.str "1.0.0")])]) =
        .ok D1 ∧
      stamp false "bbb" D1 = .ok (.map l') ∧
      lookupKey l' "spec" = some (.map l2') ∧
      lookupKey l2' "release" =
        some (.str ("1.0.0" ++ "." ++ "aaa" ++ "." ++ "bbb"))) :=
  ⟨rfl, rfl, stamp_not_idempotent _ _ "1.0.0" "aaa" "bbb" rfl rfl⟩

/-- C2 counterexample: in the document `{spec: {release: {}}}` the field
path resolves to a value that is not a scalar, yet the stamping step does
NOT fail with FieldMissing — the f-string stringifies the mapping — and
the pipeline publishes a blob.  This refutes the claim for the
"value is not a scalar" case. -/
theorem nonscalar_release_publishes :
    stamp false "abc" (.map [("spec", .map [("release", .map [])])]) ≠
      .error .fieldMissing ∧
    ((run ⟨.ok "abc", .ok (.map [("spec", .map [("release", .map [])])]),
      false, "b", "d", "p", true, true⟩).store).isSome = true := by
  refine ⟨fun h => ?_, rfl⟩
  have hok : stamp false "abc" (.map [("spec", .map [("release", .map [])])]) =
      .ok (.map (setKey [("spec", Yaml.map [("release", Yaml.map [])])] "spec"
        (.map (setKey [("release", Yaml.map [])] "release"
          (.str (pyStr (.map []) ++ "." ++ "abc")))))) := rfl
  rw [hok] at h
  cases h

/-- C2 amended: when the two dictionary reads of `spec.release` fail —
the document is not a mapping, the key `spec` is missing or holds a
non-mapping, or the key `release` is missing under it — the stamping step
fails with FieldMissing and the pipeline publishes nothing.  (If the path
resolves, to a value of any type — scalar or not — stamping succeeds.) -/
theorem missing_release_no_publish (env : Env) (sha : String) (doc : Yaml)
    (hc : env.cloneResult = .ok sha) (hl : env.loadResult = .ok doc)
    (hadj : env.noReleaseAdjustment = false)
    (hmiss : resolvesSpecRelease doc = false) :
    (run env).phase = .failed .fieldMissing ∧ (run env).store = none := by
  have hst : stamp env.noReleaseAdjustment sha doc = .error .fieldMissing := by
    rw [hadj]
    exact stamp_error_of_not_resolves sha doc hmiss
  constructor <;> simp [run_eq, hc, hl, hst]

theorem missing_release_no_publish_witness :
    resolvesSpecRelease (Yaml.map []) = false ∧
    ((run ⟨.ok "abc", .ok (Yaml.map []), false, "b", "d", "p", true, true⟩).phase =
        .failed .fieldMissing ∧
      (run ⟨.ok "abc", .ok (Yaml.map []), false, "b", "d", "p", true, true⟩).store = none) :=
  ⟨rfl, missing_release_no_publish _ "abc" (Yaml.map []) rfl rfl rfl rfl⟩

/-- C3: parsing the serialization of any representable document recovers
a document equal to it in the sense of Python `==` on loaded trees:
`load (serialize D)` succeeds and returns the canonical form of `D`,
which differs from `D` at most in the insertion order of mapping entries
(the `Reorder` relation, which is what dictionary equality ignores). -/
theorem load_serialize_roundtrip (D : Yaml) :
    load (serialize D) = some (canon D) ∧ Reorder D (canon D) :=
  ⟨load_serialize D, reorder_canon D⟩

/-- C5: with stamping disabled the stamping step is the identity and the
pipeline publishes exactly the serialization of the parsed document, with
no field rewritten. -/
theorem no_adjustment_identity (env : Env) (sha : String) (doc : Yaml)
    (hc : env.cloneResult = .ok sha) (hl : env.loadResult = .ok doc)
    (hadj : env.noReleaseAdjustment = true)
    (hconn : env.connectOk = true) (hstore : env.storeOk = true) :
    stamp env.noReleaseAdjustment sha doc = .ok doc ∧
    (run env).store = some (targetKey env, serialize doc) := by
  have h1 : stamp env.noReleaseAdjustment sha doc = .ok doc := by
    rw [hadj]
    rfl
  refine ⟨h1, ?_⟩
  simp [run_eq, hc, hl, h1, hconn, hstore]

theorem no_adjustment_identity_witness :
    (⟨.ok "abc", .ok (Yaml.map [("spec", Yaml.map [("release", Yaml.str "1.0.0")])]),
        true, "b", "d", "p", true, true⟩ : Env).noReleaseAdjustment = true ∧
    (stamp true "abc" (Yaml.map [("spec", Yaml.map [("release", Yaml.str "1.0.0")])]) =
        .ok (Yaml.map [("spec", Yaml.map [("release", Yaml.str "1.0.0")])]) ∧
      (run ⟨.ok "abc", .ok (Yaml.map [("spec", Yaml.map [("release", Yaml.str "1.0.0")])]),
        true, "b", "d", "p", true, true⟩).store =
        some (targetKey ⟨.ok "abc",
          .ok (Yaml.map [("spec", Yaml.map [("release", Yaml.str "1.0.0")])]),
          true, "b", "d", "p", true, true⟩,
          serialize (Yaml.map [("spec", Yaml.map [("release", Yaml.str "1.0.0")])]))) :=
  ⟨rfl, no_adjustment_identity
    ⟨.ok "abc", .ok (Yaml.map [("spec", Yaml.map [("release", Yaml.str "1.0.0")])]),
      true, "b", "d", "p", true, true⟩ "abc"
    (Yaml.map [("spec", Yaml.map [("release", Yaml.str "1.0.0")])]) rfl rfl rfl rfl rfl⟩

/-- C6: every published blob lands at the key
`bucketSegment ++ "/" ++ deploymentName ++ "/" ++ prescriptionPath` — the
deployment prefix (bucket and deployment name joined by a slash) joined
to the relative document path; consequently any two runs that publish
under the same prefix and path resolve to the same key. -/
theorem target_key_composition (env : Env) (k b : String)
    (h : (run env).store = some (k, b)) :
    k = env.bucketSegment ++ "/" ++ env.deploymentName ++ "/" ++ env.prescriptionPath ∧
    (∀ env2 k2 b2, (run env2).store = some (k2, b2) →
      env2.bucketSegment = env.bucketSegment → env2.deploymentName = env.deploymentName →
      env2.prescriptionPath = env.prescriptionPath → k2 = k) := by
  obtain ⟨sha, doc, doc2, _, _, _, hk, _⟩ := run_store_spec env k b h
  constructor
  · rw [hk]
    rfl
  · intro env2 k2 b2 h2 e1 e2 e3
    obtain ⟨sha2, doc3, doc4, _, _, _, hk2, _⟩ := run_store_spec env2 k2 b2 h2
    rw [hk2, hk]
    simp [targetKey, deployKeyBase, e1, e2, e3]

theorem target_key_composition_witness :
    (run ⟨.ok "abc", .ok Yaml.null, true, "b", "d", "p", true, true⟩).store =
      some ("b/d/p", serialize Yaml.null) ∧
    ("b/d/p" = "b" ++ "/" ++ "d" ++ "/" ++ "p" ∧
      (∀ env2 k2 b2, (run env2).store = some (k2, b2) →
        env2.bucketSegment = "b" → env2.deploymentName = "d" →
        env2.prescriptionPath = "p" → k2 = "b/d/p")) :=
  ⟨rfl, target_key_composition ⟨.ok "abc", .ok Yaml.null, true, "b", "d", "p", true, true⟩
    "b/d/p" (serialize Yaml.null) rfl⟩

/-- C7: on every exit path of a run — success, clone failure, load
failure, or failure in any later stage — the ephemeral temporary clone
directory has been removed by the end of the run: the
`tempfile.TemporaryDirectory` context manager closes (removing the
directory) when its block exits, normally or by exception, and the block
ends right after loading. -/
theorem tmpdir_always_removed (env : Env) : (run env).tmpDirExists = false := by
  rw [run_eq]
  rcases h1 : env.cloneResult with e | sha
  · simp [h1]
  · rcases h2 : env.loadResult with e | doc
    · simp [h1, h2]
    · rcases h3 : stamp env.noReleaseAdjustment sha doc with e | doc2
      · simp [h1, h2, h3]
      · rcases h4 : env.connectOk <;> rcases h5 : env.storeOk <;>
          simp [h1, h2, h3, h4, h5]

/-- C8: the published bytes and key are a deterministic function of the
repository state (document and resolved commit), the stamping flag, and
the deployment configuration: two runs agreeing on those inputs that both
publish, publish byte-for-byte identical blobs at the same key. -/
theorem publish_deterministic (e1 e2 : Env)
    (hc : e1.cloneResult = e2.cloneResult) (hl : e1.loadResult = e2.loadResult)
    (ha : e1.noReleaseAdjustment = e2.noReleaseAdjustment)
    (hb : e1.bucketSegment = e2.bucketSegment) (hd : e1.deploymentName = e2.deploymentName)
    (hp : e1.prescriptionPath = e2.prescriptionPath)
    (k1 b1 k2 b2 : String)
    (h1 : (run e1).store = some (k1, b1)) (h2 : (run e2).store = some (k2, b2)) :
    k1 = k2 ∧ b1 = b2 := by
  obtain ⟨sha, doc, doc2, hca, hla, hsa, hk, hbb⟩ := run_store_spec e1 k1 b1 h1
  obtain ⟨sha2, doc3, doc4, hcb, hlb, hsb, hk2, hbb2⟩ := run_store_spec e2 k2 b2 h2
  have hsha : sha = sha2 := by
    have h3 : (Except.ok sha : Except SyncError String) = Except.ok sha2 :=
      hca.symm.trans (hc.trans hcb)
    injection h3
  have hdoc : doc = doc3 := by
    have h3 : (Except.ok doc : Except SyncError Yaml) = Except.ok doc3 :=
      hla.symm.trans (hl.trans hlb)
    injection h3
  have hdoc2 : doc2 = doc4 := by
    rw [← ha, ← hsha, ← hdoc] at hsb
    rw [hsa] at hsb
    injection hsb
  constructor
  · rw [hk, hk2]
    simp [targetKey, deployKeyBase, hb, hd, hp]
  · rw [hbb, hbb2, hdoc2]

theorem publish_deterministic_witness :
    (run ⟨.ok "abc", .ok Yaml.null, true, "b", "d", "p", true, true⟩).store =
      some ("b/d/p", serialize Yaml.null) ∧
    ("b/d/p" = "b/d/p" ∧ serialize Yaml.null = serialize Yaml.null) :=
  ⟨rfl, publish_deterministic
    ⟨.ok "abc", .ok Yaml.null, true, "b", "d", "p", true, true⟩
    ⟨.ok "abc", .ok Yaml.null, true, "b", "d", "p", true, true⟩
    rfl rfl rfl rfl rfl rfl "b/d/p" (serialize Yaml.null) "b/d/p" (serialize Yaml.null)
    rfl rfl⟩

/-- C10: serialization does not depend on the insertion order of mapping
entries: two documents equal up to the order of mapping entries (with
distinct keys, as any loaded document has) serialize to byte-for-byte
identical text, because the serializer emits keys in sorted order. -/
theorem serialize_key_order_invariant (D1 D2 : Yaml) (h : Reorder D1 D2)
    (hw : wfKeys D1 = true) : serialize D1 = serialize D2 := by
  rw [serialize, serialize, canon_eq_of_reorder h hw]

theorem serialize_key_order_invariant_witness :
    wfKeys (Yaml.map [("b", Yaml.int 1), ("a", Yaml.int 2)]) = true ∧
    serialize (Yaml.map [("b", Yaml.int 1), ("a", Yaml.int 2)]) =
      serialize (Yaml.map [("a", Yaml.int 2), ("b", Yaml.int 1)]) :=
  ⟨rfl, serialize_key_order_invariant _ _
    (Reorder.map
      (ReorderPairs.cons "b" (Reorder.int 1)
        (ReorderPairs.cons "a" (Reorder.int 2) ReorderPairs.nil))
      (List.Perm.swap ("a", Yaml.int 2) ("b", Yaml.int 1) []))
    rfl⟩

end PSync
